import Mathlib

/-!
Verification of the `ReactiveVector` observable container
(`src/reactive_vector.hpp`).

The container wraps a dynamically-resizable array (`std::vector`) and
emits one event per state-changing operation.  We embed it shallowly:
the element storage becomes a `List T`, the reserved capacity an
explicit `Nat`, and every operation returns the successor state
together with the list of events it emitted during the call.

Capacity behaviour of the underlying `std::vector` is modelled with the
usual growth policy: `push_back`/`emplace_back` double the capacity
(at least 1) when the vector is full, `reserve` reallocates to exactly
the requested capacity when it exceeds the current one, and `resize`
reallocates to at least the new size when growing.  `pop_back`,
`clear`, `erase` and shrinking `resize` never release capacity.
-/

namespace ReactiveVec

/-- The six event variants of `VectorSignals<T>` in the source.  Payload
fields that the source passes by reference are carried by value here;
the contracts under verification only concern the values. -/
inductive Event (T : Type) where
  | Inserted (index : Nat) (value : T)
  | Updated (index : Nat) (old_value : T) (new_value : T)
  | Erased (index : Nat) (old_value : T)
  | Cleared
  | Reserved (new_capacity : Nat)
  | Resized (old_size : Nat) (new_size : Nat)
  deriving DecidableEq, Repr

/-- State of `ReactiveVector<T>`: the stored elements (`vec_`, in
order) and the reserved capacity of the underlying `std::vector`. -/
structure ReactiveVector (T : Type) where
  vec : List T
  cap : Nat
  deriving DecidableEq, Repr

namespace ReactiveVector

variable {T : Type}

/-- Source `size()`: number of live elements. -/
def size (rv : ReactiveVector T) : Nat := rv.vec.length

/-- Source `empty()`. -/
def isEmpty (rv : ReactiveVector T) : Bool := rv.vec.isEmpty

/-- Source `capacity()`. -/
def capacity (rv : ReactiveVector T) : Nat := rv.cap

/-- Source `ReactiveVector()` — default constructor: empty, no storage. -/
def mkEmpty : ReactiveVector T := ⟨[], 0⟩

/-- Source `ReactiveVector(n, value)` — n copies of `value`; the underlying
vector allocates exactly n slots. -/
def mkFilled (n : Nat) (value : T) : ReactiveVector T :=
  ⟨List.replicate n value, n⟩

/-- Source `ReactiveVector(init)` — from an initializer list. -/
def mkOfList (init : List T) : ReactiveVector T := ⟨init, init.length⟩

/-- Capacity after an insertion at the back: unchanged while there is
headroom, otherwise the standard doubling reallocation. -/
def growCap (len cap : Nat) : Nat :=
  if len < cap then cap else max 1 (2 * cap)

/-- Source `push_back(value)`: append, then emit
`Inserted{vec_.size() - 1, value}`. -/
def push_back (rv : ReactiveVector T) (value : T) :
    ReactiveVector T × List (Event T) :=
  let vec' := rv.vec ++ [value]
  (⟨vec', growCap rv.vec.length rv.cap⟩,
   [Event.Inserted (vec'.length - 1) value])

/-- Source `emplace_back(args...)`: constructs the new element in place from
`args`; in the embedding the constructed element is the argument.
Emits `Inserted{vec_.size() - 1, vec_.back()}`. -/
def emplace_back (rv : ReactiveVector T) (value : T) :
    ReactiveVector T × List (Event T) :=
  rv.push_back value

/-- Source `pop_back()`: early-return on empty, otherwise remove the last
element and emit `Erased{old_size - 1, old_value}`. -/
def pop_back (rv : ReactiveVector T) : ReactiveVector T × List (Event T) :=
  match rv.vec.getLast? with
  | none => (rv, [])
  | some old_value =>
      (⟨rv.vec.dropLast, rv.cap⟩,
       [Event.Erased (rv.vec.length - 1) old_value])

/-- Source `clear()`: if non-empty, drop all elements (capacity is retained by
`std::vector::clear`) and emit `Cleared{}`. -/
def clear (rv : ReactiveVector T) : ReactiveVector T × List (Event T) :=
  if rv.vec.isEmpty then (rv, [])
  else (⟨[], rv.cap⟩, [Event.Cleared])

/-- Source `reserve(new_cap)`: `std::vector::reserve` reallocates to the
requested capacity when it exceeds the current one and does nothing
otherwise; the wrapper emits `Reserved{capacity()}` exactly when the
capacity changed. -/
def reserve (rv : ReactiveVector T) (new_cap : Nat) :
    ReactiveVector T × List (Event T) :=
  let old_cap := rv.cap
  let cap' := if old_cap < new_cap then new_cap else old_cap
  if cap' ≠ old_cap then (⟨rv.vec, cap'⟩, [Event.Reserved cap'])
  else (⟨rv.vec, cap'⟩, [])

/-- Source `resize(new_size, value)`: grow with copies of `value` or truncate;
capacity reallocates to at least the new size when growing and is
retained when shrinking.  Emits `Resized{old_size, new_size}` exactly
when the size changed. -/
def resize (rv : ReactiveVector T) (new_size : Nat) (value : T) :
    ReactiveVector T × List (Event T) :=
  let old_size := rv.vec.length
  let vec' :=
    if new_size ≤ old_size then rv.vec.take new_size
    else rv.vec ++ List.replicate (new_size - old_size) value
  let cap' := max rv.cap new_size
  if new_size ≠ old_size then
    (⟨vec', cap'⟩, [Event.Resized old_size new_size])
  else (⟨vec', cap'⟩, [])

/-- Source `update_if_exists(index, new_value)`: returns `false` without
touching anything when `index ≥ size`; otherwise overwrites the slot,
emits `Updated{index, old_value, vec_[index]}` and returns `true`. -/
def update_if_exists (rv : ReactiveVector T) (index : Nat) (new_value : T) :
    (ReactiveVector T × List (Event T)) × Bool :=
  match rv.vec[index]? with
  | none => ((rv, []), false)
  | some old_value =>
      ((⟨rv.vec.set index new_value, rv.cap⟩,
        [Event.Updated index old_value new_value]), true)

/-- Source `erase(pos)` where `pos` is the iterator at offset `index`:
removes the element there, shifting later elements down, and emits
`Erased{index, old_value}`.  A position not denoting a live element is
a caller-contract violation (undefined behaviour in the source); the
embedding leaves the state unchanged on that branch. -/
def erase (rv : ReactiveVector T) (index : Nat) :
    ReactiveVector T × List (Event T) :=
  match rv.vec[index]? with
  | none => (rv, [])
  | some old_value =>
      (⟨rv.vec.eraseIdx index, rv.cap⟩, [Event.Erased index old_value])

/-- The single error kind that bounds-checked access can raise. -/
inductive AccessError where
  | outOfRange
  deriving DecidableEq, Repr

/-- Source `at(i)`: bounds-checked read, delegating to `std::vector::at`.
It either returns the element or propagates `std::out_of_range` to the
caller; the state comes back unchanged and no event is emitted either
way.  (`at` is a reserved word in Lean, hence the name.) -/
def atChecked (rv : ReactiveVector T) (i : Nat) :
    Except AccessError T × ReactiveVector T × List (Event T) :=
  match rv.vec[i]? with
  | some v => (Except.ok v, rv, [])
  | none => (Except.error AccessError.outOfRange, rv, [])

end ReactiveVector

variable {T : Type}

/-- One invocation of a public mutating operation. -/
inductive Op (T : Type) where
  | pushBack (v : T)
  | emplaceBack (v : T)
  | popBack
  | clearAll
  | reserveCap (n : Nat)
  | resizeTo (n : Nat) (fill : T)
  | updateIfExists (i : Nat) (v : T)
  | eraseAt (i : Nat)

/-- State transition of one public operation (events discarded). -/
def applyOp (rv : ReactiveVector T) : Op T → ReactiveVector T
  | .pushBack v => (rv.push_back v).1
  | .emplaceBack v => (rv.emplace_back v).1
  | .popBack => rv.pop_back.1
  | .clearAll => rv.clear.1
  | .reserveCap n => (rv.reserve n).1
  | .resizeTo n f => (rv.resize n f).1
  | .updateIfExists i v => (rv.update_if_exists i v).1.1
  | .eraseAt i => (rv.erase i).1

/-- Run a finite sequence of public operations. -/
def runOps (rv : ReactiveVector T) (ops : List (Op T)) : ReactiveVector T :=
  ops.foldl applyOp rv

/-- The three public constructors. -/
inductive Init (T : Type) where
  | empty
  | filled (n : Nat) (v : T)
  | ofList (l : List T)

/-- Build the starting state of a constructor. -/
def Init.build : Init T → ReactiveVector T
  | .empty => ReactiveVector.mkEmpty
  | .filled n v => ReactiveVector.mkFilled n v
  | .ofList l => ReactiveVector.mkOfList l

/-- The storage invariant: capacity never drops below the size. -/
def capInv (rv : ReactiveVector T) : Prop := rv.size ≤ rv.cap

open ReactiveVector

/-- Claim C1: `push_back(v)` appends v at the end, leaves the previously
stored elements unchanged at their indices, increases the size by
exactly 1, and emits exactly one `Inserted` event whose index is the
old size (= new size - 1) and whose value is v. -/
theorem push_back_spec (rv : ReactiveVector T) (v : T) :
    (rv.push_back v).1.vec = rv.vec ++ [v] ∧
    (rv.push_back v).1.size = rv.size + 1 ∧
    (∀ j : Nat, j < rv.size → (rv.push_back v).1.vec[j]? = rv.vec[j]?) ∧
    (rv.push_back v).1.vec[rv.size]? = some v ∧
    (rv.push_back v).2 = [Event.Inserted rv.size v] := by
  refine ⟨rfl, by simp [push_back, size], ?_, ?_, by simp [push_back, size]⟩
  · intro j hj
    exact List.getElem?_append_left hj
  · exact List.getElem?_concat_length rv.vec v

/-- Witness for C1: pushing 9 onto [4, 6]. -/
theorem push_back_spec_witness :
    ((ReactiveVector.mk [4, 6] 2 : ReactiveVector Nat).push_back 9).1.vec
        = [4, 6, 9] ∧
    ((ReactiveVector.mk [4, 6] 2 : ReactiveVector Nat).push_back 9).1.vec[0]?
        = some 4 ∧
    ((ReactiveVector.mk [4, 6] 2 : ReactiveVector Nat).push_back 9).2
        = [Event.Inserted 2 9] := by
  have h := push_back_spec (ReactiveVector.mk [4, 6] 2 : ReactiveVector Nat) 9
  refine ⟨?_, ?_, h.2.2.2.2⟩
  · rw [h.1]
    decide
  · rw [h.2.2.1 0 (by decide)]
    decide

/-- Claim C2: on a non-empty vector, `pop_back()` removes the last element,
decreases the size by exactly 1 and emits exactly one `Erased` event
with index = old size - 1 and old_value = the removed element; on an
empty vector it changes nothing and emits nothing. -/
theorem pop_back_spec (rv : ReactiveVector T) :
    (∀ h : rv.vec ≠ [],
      rv.pop_back.1.vec = rv.vec.dropLast ∧
      rv.pop_back.1.size + 1 = rv.size ∧
      rv.pop_back.2 = [Event.Erased (rv.size - 1) (rv.vec.getLast h)]) ∧
    (rv.vec = [] → rv.pop_back = (rv, [])) := by
  constructor
  · intro h
    have hg : rv.vec.getLast? = some (rv.vec.getLast h) :=
      List.getLast?_eq_getLast rv.vec h
    have hpos : 0 < rv.vec.length := List.length_pos.mpr h
    unfold pop_back
    rw [hg]
    refine ⟨rfl, ?_, rfl⟩
    simp only [size, List.length_dropLast]
    omega
  · intro h
    unfold pop_back
    rw [h]
    rfl

/-- Witness for C2: `pop_back` on the concrete state ⟨[5, 7], 2⟩ and on the
empty state. -/
theorem pop_back_spec_witness :
    (ReactiveVector.mk [5, 7] 2 : ReactiveVector Nat).pop_back.2
        = [Event.Erased 1 7] ∧
    (ReactiveVector.mk [] 0 : ReactiveVector Nat).pop_back
        = (ReactiveVector.mk [] 0, []) := by
  constructor
  · rw [((pop_back_spec (ReactiveVector.mk [5, 7] 2 : ReactiveVector Nat)).1
      (by decide)).2.2]
    decide
  · exact (pop_back_spec (ReactiveVector.mk [] 0 : ReactiveVector Nat)).2 rfl

/-- Claim C3: `update_if_exists(i, v)` returns false, emits nothing and
changes nothing when i ≥ size; when i < size it returns true, replaces
the element at i by v and emits exactly one `Updated{i, old, v}`
event. -/
theorem update_if_exists_spec (rv : ReactiveVector T) (i : Nat) (v : T) :
    (rv.size ≤ i → rv.update_if_exists i v = ((rv, []), false)) ∧
    (∀ h : i < rv.size,
      (rv.update_if_exists i v).2 = true ∧
      (rv.update_if_exists i v).1.1.vec = rv.vec.set i v ∧
      (rv.update_if_exists i v).1.1.vec[i]? = some v ∧
      (rv.update_if_exists i v).1.2
          = [Event.Updated i (rv.vec.get ⟨i, h⟩) v]) := by
  constructor
  · intro h
    have hn : rv.vec[i]? = none := by
      rw [List.getElem?_eq_none_iff]
      exact h
    unfold update_if_exists
    rw [hn]
  · intro h
    have hs : rv.vec[i]? = some (rv.vec.get ⟨i, h⟩) := by
      rw [List.getElem?_eq_getElem h]
      rfl
    unfold update_if_exists
    rw [hs]
    refine ⟨rfl, rfl, ?_, rfl⟩
    have h' : i < rv.vec.length := h
    simp [List.getElem?_set_self, h']

/-- Witness for C3: both branches at concrete inputs. -/
theorem update_if_exists_spec_witness :
    (ReactiveVector.mk [4, 6] 2 : ReactiveVector Nat).update_if_exists 5 9
        = ((ReactiveVector.mk [4, 6] 2, []), false) ∧
    ((ReactiveVector.mk [4, 6] 2 : ReactiveVector Nat).update_if_exists 1 9).1.2
        = [Event.Updated 1 6 9] := by
  constructor
  · exact (update_if_exists_spec
      (ReactiveVector.mk [4, 6] 2 : ReactiveVector Nat) 5 9).1 (by decide)
  · rw [((update_if_exists_spec
      (ReactiveVector.mk [4, 6] 2 : ReactiveVector Nat) 1 9).2
        (by decide)).2.2.2]
    decide

/-- Claim C4: `resize(n, f)` with n > size appends n - size copies of f and
emits one `Resized{old_size, n}`; with n < size it truncates to the
first n elements and emits one `Resized{old_size, n}`; with n = size
it changes nothing and emits nothing. -/
theorem resize_spec (rv : ReactiveVector T) (n : Nat) (f : T) :
    (rv.size < n →
      (rv.resize n f).1.vec = rv.vec ++ List.replicate (n - rv.size) f ∧
      (rv.resize n f).2 = [Event.Resized rv.size n]) ∧
    (n < rv.size →
      (rv.resize n f).1.vec = rv.vec.take n ∧
      (rv.resize n f).2 = [Event.Resized rv.size n]) ∧
    (n = rv.size →
      (rv.resize n f).1.vec = rv.vec ∧
      (rv.resize n f).2 = [] ∧
      (rv.size ≤ rv.cap → (rv.resize n f).1 = rv)) := by
  refine ⟨?_, ?_, ?_⟩
  · intro h
    have hl : rv.vec.length < n := h
    simp only [resize, size]
    rw [if_neg (by omega : ¬ n ≤ rv.vec.length),
      if_pos (by omega : n ≠ rv.vec.length)]
    exact ⟨rfl, rfl⟩
  · intro h
    have hl : n < rv.vec.length := h
    simp only [resize, size]
    rw [if_pos (by omega : n ≤ rv.vec.length),
      if_pos (by omega : n ≠ rv.vec.length)]
    exact ⟨rfl, rfl⟩
  · intro h
    have hl : n = rv.vec.length := h
    simp only [resize, size]
    rw [if_pos (by omega : n ≤ rv.vec.length),
      if_neg (by omega : ¬ n ≠ rv.vec.length)]
    have ht : rv.vec.take n = rv.vec := by
      rw [hl]
      exact List.take_length rv.vec
    refine ⟨ht, rfl, ?_⟩
    intro hc
    have hc0 : rv.vec.length ≤ rv.cap := hc
    have hm : max rv.cap n = rv.cap := by omega
    show (⟨rv.vec.take n, max rv.cap n⟩ : ReactiveVector T) = rv
    rw [ht, hm]

/-- Witness for C4: the three branches of `resize` at concrete inputs. -/
theorem resize_spec_witness :
    ((ReactiveVector.mk [1, 2] 2 : ReactiveVector Nat).resize 4 9).1.vec
        = [1, 2, 9, 9] ∧
    ((ReactiveVector.mk [1, 2] 2 : ReactiveVector Nat).resize 1 9).2
        = [Event.Resized 2 1] ∧
    ((ReactiveVector.mk [1, 2] 2 : ReactiveVector Nat).resize 2 9).1
        = ReactiveVector.mk [1, 2] 2 := by
  refine ⟨?_, ?_, ?_⟩
  · rw [((resize_spec (ReactiveVector.mk [1, 2] 2 : ReactiveVector Nat) 4 9).1
      (by decide)).1]
    decide
  · exact ((resize_spec (ReactiveVector.mk [1, 2] 2 : ReactiveVector Nat) 1 9).2.1
      (by decide)).2
  · exact ((resize_spec (ReactiveVector.mk [1, 2] 2 : ReactiveVector Nat) 2 9).2.2
      rfl).2.2 (by decide)

/-- Claim C5: `reserve(n)` ensures capacity ≥ n, never decreases the
capacity, leaves size and elements unchanged, and emits exactly one
`Reserved{new_capacity}` event precisely when the capacity changed;
in particular n ≤ capacity emits nothing. -/
theorem reserve_spec (rv : ReactiveVector T) (n : Nat) :
    n ≤ (rv.reserve n).1.cap ∧
    rv.cap ≤ (rv.reserve n).1.cap ∧
    (rv.reserve n).1.vec = rv.vec ∧
    (rv.reserve n).1.size = rv.size ∧
    ((rv.reserve n).2
        = if (rv.reserve n).1.cap ≠ rv.cap
          then [Event.Reserved (rv.reserve n).1.cap] else []) ∧
    (n ≤ rv.cap → (rv.reserve n).2 = []) := by
  by_cases h : rv.cap < n
  · simp only [reserve]
    rw [if_pos h, if_pos (by omega : n ≠ rv.cap)]
    refine ⟨Nat.le_refl n, Nat.le_of_lt h, rfl, rfl, ?_, ?_⟩
    · rw [if_pos (by omega : n ≠ rv.cap)]
    · intro hc
      omega
  · simp only [reserve]
    rw [if_neg h, if_neg (by omega : ¬ rv.cap ≠ rv.cap)]
    refine ⟨Nat.not_lt.mp h, Nat.le_refl rv.cap, rfl, rfl, ?_, fun _ => rfl⟩
    rw [if_neg (by omega : ¬ rv.cap ≠ rv.cap)]

/-- Witness for C5: `reserve` with a request below the current capacity. -/
theorem reserve_spec_witness :
    ((ReactiveVector.mk [1] 5 : ReactiveVector Nat).reserve 3).2 = [] :=
  (reserve_spec (ReactiveVector.mk [1] 5 : ReactiveVector Nat) 3).2.2.2.2.2
    (by decide)

/-- Claim C6: `clear()` on a non-empty vector removes all elements and emits
exactly one `Cleared` event; on an empty vector it changes nothing and
emits nothing. -/
theorem clear_spec (rv : ReactiveVector T) :
    (rv.vec ≠ [] →
      rv.clear.1.vec = [] ∧
      rv.clear.1.size = 0 ∧
      rv.clear.2 = [Event.Cleared]) ∧
    (rv.vec = [] → rv.clear = (rv, [])) := by
  constructor
  · intro h
    have he : rv.vec.isEmpty = false := by
      simpa [List.isEmpty_iff] using h
    simp [clear, he, size]
  · intro h
    simp [clear, h]

/-- Witness for C6: `clear` on a concrete non-empty and on an empty state. -/
theorem clear_spec_witness :
    (ReactiveVector.mk [1, 2] 4 : ReactiveVector Nat).clear.2
        = [Event.Cleared] ∧
    (ReactiveVector.mk [] 4 : ReactiveVector Nat).clear
        = (ReactiveVector.mk [] 4, []) := by
  constructor
  · exact ((clear_spec (ReactiveVector.mk [1, 2] 4 : ReactiveVector Nat)).1
      (by decide)).2.2
  · exact (clear_spec (ReactiveVector.mk [] 4 : ReactiveVector Nat)).2 rfl

/-- Claim C7: `erase` at a position denoting a live element at index i
removes that element, keeps the elements before i at their indices,
shifts every later element down by one, decreases the size by exactly
1, and emits exactly one `Erased{i, old_value}` event. -/
theorem erase_spec (rv : ReactiveVector T) (i : Nat) (h : i < rv.size) :
    (rv.erase i).1.size + 1 = rv.size ∧
    (∀ j : Nat, j < i → (rv.erase i).1.vec[j]? = rv.vec[j]?) ∧
    (∀ j : Nat, i ≤ j → (rv.erase i).1.vec[j]? = rv.vec[j + 1]?) ∧
    (rv.erase i).2 = [Event.Erased i (rv.vec.get ⟨i, h⟩)] := by
  have h' : i < rv.vec.length := h
  have hs : rv.vec[i]? = some (rv.vec.get ⟨i, h⟩) := by
    rw [List.getElem?_eq_getElem h']
    rfl
  unfold erase
  rw [hs]
  refine ⟨?_, ?_, ?_, rfl⟩
  · simp only [size, List.length_eraseIdx, h', if_pos]
    omega
  · intro j hj
    exact List.getElem?_eraseIdx_of_lt rv.vec i j hj
  · intro j hj
    exact List.getElem?_eraseIdx_of_ge rv.vec i j hj

/-- Witness for C7: erasing index 1 of [4, 5, 6]. -/
theorem erase_spec_witness :
    ((ReactiveVector.mk [4, 5, 6] 3 : ReactiveVector Nat).erase 1).1.size + 1 = 3 ∧
    ((ReactiveVector.mk [4, 5, 6] 3 : ReactiveVector Nat).erase 1).2
        = [Event.Erased 1 5] := by
  have h := erase_spec (ReactiveVector.mk [4, 5, 6] 3 : ReactiveVector Nat) 1
    (by decide)
  exact ⟨h.1, h.2.2.2⟩

/-- Claim C8: bounds-checked access `at(i)` propagates an Out-of-Range error
to the caller exactly when i ≥ size, leaves the state unchanged and
emits no event in either case, and returns the element at i when
i < size. -/
theorem atChecked_spec (rv : ReactiveVector T) (i : Nat) :
    ((rv.atChecked i).1 = Except.error AccessError.outOfRange ↔ rv.size ≤ i) ∧
    (rv.atChecked i).2.1 = rv ∧
    (rv.atChecked i).2.2 = [] ∧
    (∀ h : i < rv.size, (rv.atChecked i).1 = Except.ok (rv.vec.get ⟨i, h⟩)) := by
  have hsz : rv.size = rv.vec.length := rfl
  by_cases h : i < rv.vec.length
  · have hs : rv.vec[i]? = some (rv.vec.get ⟨i, h⟩) := by
      rw [List.getElem?_eq_getElem h]
      rfl
    unfold atChecked
    rw [hs]
    refine ⟨?_, rfl, rfl, fun _ => rfl⟩
    constructor
    · intro hc
      exact absurd hc (by simp)
    · intro hc
      exact absurd h (by omega)
  · have hn : rv.vec[i]? = none := by
      rw [List.getElem?_eq_none_iff]
      omega
    unfold atChecked
    rw [hn]
    refine ⟨?_, rfl, rfl, ?_⟩
    · constructor
      · intro _
        omega
      · intro _
        rfl
    · intro hc
      exact absurd (hc : i < rv.vec.length) h

/-- Witness for C8: both branches of `at` on [8, 9]. -/
theorem atChecked_spec_witness :
    ((ReactiveVector.mk [8, 9] 2 : ReactiveVector Nat).atChecked 1).1
        = Except.ok 9 ∧
    ((ReactiveVector.mk [8, 9] 2 : ReactiveVector Nat).atChecked 7).1
        = Except.error AccessError.outOfRange := by
  constructor
  · exact (atChecked_spec (ReactiveVector.mk [8, 9] 2 : ReactiveVector Nat) 1).2.2.2
      (by decide)
  · exact (atChecked_spec (ReactiveVector.mk [8, 9] 2 : ReactiveVector Nat) 7).1.mpr
      (by decide)

/-- Insertion growth keeps the capacity above the new size. -/
lemma le_growCap (len cap : Nat) (h : len ≤ cap) : len + 1 ≤ growCap len cap := by
  unfold growCap
  split
  · omega
  · omega

/-- Every public operation preserves the capacity invariant. -/
lemma capInv_applyOp (rv : ReactiveVector T) (op : Op T) (h : capInv rv) :
    capInv (applyOp rv op) := by
  unfold capInv size at *
  cases op with
  | pushBack v =>
      simp only [applyOp, push_back, List.length_append, List.length_cons,
        List.length_nil]
      exact le_growCap rv.vec.length rv.cap h
  | emplaceBack v =>
      simp only [applyOp, emplace_back, push_back, List.length_append,
        List.length_cons, List.length_nil]
      exact le_growCap rv.vec.length rv.cap h
  | popBack =>
      simp only [applyOp, pop_back]
      cases hg : rv.vec.getLast? with
      | none => exact h
      | some a =>
          simp only [List.length_dropLast]
          omega
  | clearAll =>
      simp only [applyOp, clear]
      split
      · exact h
      · simp
  | reserveCap n =>
      simp only [applyOp, reserve]
      split
      · split
        · simp only []
          omega
        · simp only []
          omega
      · split
        · simp only []
          omega
        · simp only []
          omega
  | resizeTo n f =>
      simp only [applyOp, resize]
      split
      · split
        · simp only [List.length_take]
          omega
        · simp only [List.length_append, List.length_replicate]
          omega
      · split
        · simp only [List.length_take]
          omega
        · simp only [List.length_append, List.length_replicate]
          omega
  | updateIfExists i v =>
      simp only [applyOp, update_if_exists]
      cases hg : rv.vec[i]? with
      | none => exact h
      | some a => simpa [List.length_set] using h
  | eraseAt i =>
      simp only [applyOp, erase]
      cases hg : rv.vec[i]? with
      | none => exact h
      | some a =>
          simp only [List.length_eraseIdx]
          split <;> omega

/-- Running any finite operation sequence preserves the invariant. -/
lemma capInv_runOps (ops : List (Op T)) :
    ∀ rv : ReactiveVector T, capInv rv → capInv (runOps rv ops) := by
  induction ops with
  | nil =>
      intro rv h
      exact h
  | cons op rest ih =>
      intro rv h
      exact ih (applyOp rv op) (capInv_applyOp rv op h)

/-- Claim C9: starting from any of the three constructors, capacity ≥ size
holds after every finite sequence of public operations. -/
theorem capacity_ge_size_invariant (i : Init T) (ops : List (Op T)) :
    capInv (runOps i.build ops) := by
  apply capInv_runOps
  cases i with
  | empty => exact Nat.le_refl 0
  | filled n v =>
      simp [Init.build, mkFilled, capInv, size]
  | ofList l =>
      exact Nat.le_refl l.length

/-- Claim C10: a successful `update_if_exists(i, v)` changes only the element
at index i: the size, the capacity and every element at an index other
than i are unchanged. -/
theorem update_if_exists_frame (rv : ReactiveVector T) (i : Nat) (v : T)
    (h : i < rv.size) :
    (rv.update_if_exists i v).1.1.size = rv.size ∧
    (rv.update_if_exists i v).1.1.cap = rv.cap ∧
    ∀ j : Nat, j ≠ i → (rv.update_if_exists i v).1.1.vec[j]? = rv.vec[j]? := by
  have h' : i < rv.vec.length := h
  have hs : rv.vec[i]? = some rv.vec[i] := List.getElem?_eq_getElem h'
  unfold update_if_exists
  rw [hs]
  refine ⟨?_, rfl, ?_⟩
  · simp [size, List.length_set]
  · intro j hj
    exact List.getElem?_set_ne (Ne.symm hj)

/-- Witness for C10: updating index 0 of [4, 6] leaves index 1 alone. -/
theorem update_if_exists_frame_witness :
    ((ReactiveVector.mk [4, 6] 2 : ReactiveVector Nat).update_if_exists 0 9).1.1.size
        = 2 ∧
    ((ReactiveVector.mk [4, 6] 2 : ReactiveVector Nat).update_if_exists 0 9).1.1.vec[1]?
        = some 6 := by
  have h := update_if_exists_frame
    (ReactiveVector.mk [4, 6] 2 : ReactiveVector Nat) 0 9 (by decide)
  exact ⟨h.1, h.2.2 1 (by decide)⟩

end ReactiveVec
